import Mathlib

/-!
Verification of the PPM decompressor (`PpmDecompress.cpp`) of the
Reference-arithmetic-coding repository.

Only `PpmDecompress.cpp` is available as source.  The arithmetic decoder
(`ArithmeticCoder.hpp`), the PPM model (`PpmModel.hpp`) and the bit transport
(`BitIoStream.hpp`) are collaborators whose code is not available; they are
modelled from the specification (sections 4.1, 4.2, 3 and 6) and each such
definition is marked `Modelled from the spec:` in its doc comment.  Everything
else is translated directly from `PpmDecompress.cpp`.
-/

namespace PPM

/-- Coder state width in bits (the source constructs `ArithmeticDecoder dec(32, in)`;
spec section 4.1: W = 32). -/
def W : Nat := 32

/-- Modelled from the spec: `MASK = 2^W - 1` (section 4.1). -/
def stateMask : Nat := 2 ^ W - 1

/-- Modelled from the spec: `TOP_BIT = 2^(W-1)` (section 4.1). -/
def topBit : Nat := 2 ^ (W - 1)

/-- Modelled from the spec: `SECOND_BIT = 2^(W-2)` (section 4.1). -/
def secondBit : Nat := 2 ^ (W - 2)

/-- Modelled from the spec: maximum total frequency; the spec only requires
`MAX_TOTAL ≤ MIN_RANGE = SECOND_BIT + 2` (sections 3 and 4.1); we take the
largest allowed value. -/
def maxTotal : Nat := secondBit + 2

/-- Modelled from the spec: a Frequency Table is an ordered sequence of
non-negative integer counts, one slot per alphabet symbol (section 3). -/
structure FreqTable where
  counts : List Nat
deriving DecidableEq, Repr

/-- Count of one symbol (0 outside the table, which never happens in use). -/
def FreqTable.get (t : FreqTable) (s : Nat) : Nat := t.counts.getD s 0

/-- Modelled from the spec: the table's total (section 3, "a cached/derived total"). -/
def FreqTable.total (t : FreqTable) : Nat := t.counts.sum

/-- Modelled from the spec: sum of counts below `s` (`cumLow` of section 4.1). -/
def FreqTable.cumLow (t : FreqTable) (s : Nat) : Nat := (t.counts.take s).sum

/-- Modelled from the spec: `cumHigh = cumLow + count(symbol)` (section 4.1). -/
def FreqTable.cumHigh (t : FreqTable) (s : Nat) : Nat := (t.counts.take (s + 1)).sum

/-- Modelled from the spec: the decoder's "search over cumulative counts to find
the symbol whose `[cumLow, cumHigh)` contains `value`" (section 4.1). -/
def FreqTable.findSymbol (t : FreqTable) (value : Nat) : Option Nat :=
  (List.range t.counts.length).find?
    (fun s => decide (t.cumLow s ≤ value) && decide (value < t.cumHigh s))

/-- Modelled from the spec: the C++ exceptions that can cross the component
boundaries.  `PpmDecompress.cpp` itself raises `std::logic_error("Assertion
error")` and `std::vector::at` raises `std::out_of_range`; `main` catches only
`const char *`.  The spec's error kinds (section 7) for the absent coder/model
code are modelled as distinct class-exception constructors. -/
inductive CppExc where
  | constCharPtr (msg : String)
  | stdLogicError (msg : String)
  | stdOutOfRange (msg : String)
  | modelError
  | corruptStreamError
  | nullDeref
deriving DecidableEq, Repr

/-- Modelled from the spec: the bit transport's `readBit`; "decoder treats
missing bits as 0, matching the encoder's implicit padding" (sections 4.1, 6). -/
def readBit : List Bool → Bool × List Bool
  | [] => (false, [])
  | b :: r => (b, r)

/-- Modelled from the spec: decoder Coder State, `low`/`high`/`code` of width W
plus the remaining input bits of the transport (section 3). -/
structure Decoder where
  low : Nat
  high : Nat
  code : Nat
  input : List Bool
deriving DecidableEq, Repr

/-- Modelled from the spec: one renormalization shift, subtracting `sub` from
`low`, `high` and `code` and shifting left one bit within W bits; `high` gets a
1 appended, `low` a 0, and `code` consumes the next input bit (section 4.1). -/
def Decoder.shiftOne (d : Decoder) (sub : Nat) : Decoder :=
  let rb := readBit d.input
  { low := ((d.low - sub) * 2) % 2 ^ W
    high := ((d.high - sub) * 2 + 1) % 2 ^ W
    code := ((d.code - sub) * 2 + (if rb.1 then 1 else 0)) % 2 ^ W
    input := rb.2 }

/-- Modelled from the spec: the carry-less E1/E2/E3 renormalization loop
(section 4.1).  The loop runs at most W times per symbol because each iteration
doubles the interval width; the fuel `2*W` is therefore never exhausted. -/
def Decoder.renorm : Nat → Decoder → Decoder
  | 0, d => d
  | n + 1, d =>
    if d.high < topBit then Decoder.renorm n (d.shiftOne 0)
    else if topBit ≤ d.low then Decoder.renorm n (d.shiftOne topBit)
    else if secondBit ≤ d.low ∧ d.high < topBit + secondBit then
      Decoder.renorm n (d.shiftOne secondBit)
    else d

/-- Modelled from the spec: `Decoder.decodeSymbol(table)` of section 4.1 (named
`ArithmeticDecoder::read` by the source's call `dec.read(...)`): compute
`value = min(total - 1, floor(((code - low + 1)*total - 1)/range))`, search the
cumulative counts for the owning symbol, narrow the interval and renormalize.
Fails with `CorruptStreamError` when the search finds no owner and with
`ModelError` when the found symbol has zero count. -/
def Decoder.read (d : Decoder) (t : FreqTable) : Except CppExc (Nat × Decoder) :=
  let total := t.total
  let range := d.high - d.low + 1
  let offset := d.code - d.low
  let value := min (total - 1) (((offset + 1) * total - 1) / range)
  match t.findSymbol value with
  | none => .error .corruptStreamError
  | some s =>
    if t.get s = 0 then .error .modelError
    else
      let low2 := d.low + range * t.cumLow s / total
      let high2 := d.low + range * t.cumHigh s / total - 1
      .ok (s, Decoder.renorm (2 * W) { d with low := low2, high := high2 })

/-- Modelled from the spec: filling the `code` register with the first W input
bits at construction (section 4.1: `code` is "filled by consuming bits the same
way `low` is shifted"). -/
def Decoder.fill : Nat → Decoder → Decoder
  | 0, d => d
  | n + 1, d =>
    let rb := readBit d.input
    Decoder.fill n { d with code := d.code * 2 + (if rb.1 then 1 else 0), input := rb.2 }

/-- Modelled from the spec: initial decoder state, `low = 0`, `high = MASK`,
`code` = first W bits of the stream (sections 3 and 4.1). -/
def Decoder.init (bits : List Bool) : Decoder :=
  Decoder.fill W { low := 0, high := stateMask, code := 0, input := bits }

/-- Modelled from the spec: a Context Node owns one Frequency Table and a
mapping from "next preceding symbol" to an optional child Context Node; a node
below the maximum order carries a full (lazily populated) child table, a node
at the maximum order carries none, mirroring the source's possibly-empty
`subcontexts` vector (section 3). -/
inductive Context where
  | mk (frequencies : FreqTable) (subcontexts : List (Option Context))

/-- Frequency table of a context node. -/
def Context.frequencies : Context → FreqTable
  | .mk f _ => f

/-- Child table of a context node (empty list when the node is at maximum order). -/
def Context.subcontexts : Context → List (Option Context)
  | .mk _ c => c

/-- Replace one count. -/
def FreqTable.set (t : FreqTable) (s v : Nat) : FreqTable := ⟨t.counts.set s v⟩

/-- Modelled from the spec: one rescale pass, "halve every nonzero count,
floor, clamp to minimum 1 for previously-nonzero slots" (section 3). -/
def FreqTable.rescaleOnce (t : FreqTable) : FreqTable :=
  ⟨t.counts.map (fun c => if c = 0 then 0 else max 1 (c / 2))⟩

/-- Modelled from the spec: rescale "until total is back under the limit"
(section 3); the fuel equals the current total, which bounds the number of
halving passes. -/
def FreqTable.rescaleFuel : Nat → FreqTable → FreqTable
  | 0, t => t
  | n + 1, t => if maxTotal < t.total then FreqTable.rescaleFuel n t.rescaleOnce else t

/-- Modelled from the spec: the increment rule of `incrementContexts` (section
4.2): a symbol whose count was 0 gets count 1 and the escape slot grows by 1;
otherwise the symbol's count grows by 1; then the table is rescaled if its
total exceeds `maxTotal`. -/
def FreqTable.incrementSpec (t : FreqTable) (escapeSym s : Nat) : FreqTable :=
  let t2 :=
    if t.get s = 0 then
      let u := t.set s 1
      u.set escapeSym (u.get escapeSym + 1)
    else t.set s (t.get s + 1)
  FreqTable.rescaleFuel t2.total t2

/-- Modelled from the spec: a lazily created context node starts with an
all-zero frequency table; it carries a child table exactly when it lies below
the maximum order (section 3). -/
def mkContext (symbolLimit : Nat) (hasSub : Bool) : Context :=
  .mk ⟨List.replicate symbolLimit 0⟩
    (if hasSub then List.replicate symbolLimit none else [])

/-- Modelled from the spec: the root context node at session start.  Its escape
slot is seeded with count 1: section 4.2 requires the escape mass to "never
reach zero" and the source reads the root table unconditionally at order 0
before any symbol has been observed, so the root must start with positive
total. -/
def initRoot (symbolLimit escapeSym : Nat) (hasSub : Bool) : Context :=
  .mk ⟨(List.replicate symbolLimit 0).set escapeSym 1⟩
    (if hasSub then List.replicate symbolLimit none else [])

/-- Modelled from the spec: the walk of `incrementContexts` (section 4.2): for
every order from 0 up to the truncated history length, locate (creating if
absent) the node for that order's history prefix and update its table.  The
first argument of the recursion is the number of orders remaining below the
current node. -/
def incPath (symbolLimit escapeSym symbol : Nat) : Nat → Context → List Nat → Context
  | _, ctx, [] => .mk (ctx.frequencies.incrementSpec escapeSym symbol) ctx.subcontexts
  | 0, ctx, _ :: _ => .mk (ctx.frequencies.incrementSpec escapeSym symbol) ctx.subcontexts
  | rem + 1, ctx, s :: rest =>
    let f2 := ctx.frequencies.incrementSpec escapeSym symbol
    let child :=
      match ctx.subcontexts.getD s none with
      | some c => c
      | none => mkContext symbolLimit (0 < rem)
    .mk f2 (ctx.subcontexts.set s (some (incPath symbolLimit escapeSym symbol rem child rest)))

/-- Modelled from the spec: the PPM Context Model (sections 3 and 4.2); the
source constructs it as `PpmModel model(MODEL_ORDER, 257, 256)`.  At order −1
no context tree exists ("N = −1 degenerates to using only the order−1
fallback"). -/
structure PpmModel where
  modelOrder : Int
  symbolLimit : Nat
  escapeSymbol : Nat
  rootContext : Option Context
  orderMinus1Freqs : FreqTable

/-- Modelled from the spec: model construction; the order−1 fallback table has
every count equal to 1 (sections 3 and 4.2). -/
def PpmModel.mkInit (order : Int) (symbolLimit escapeSym : Nat) : PpmModel :=
  { modelOrder := order
    symbolLimit := symbolLimit
    escapeSymbol := escapeSym
    rootContext :=
      if 0 ≤ order then some (initRoot symbolLimit escapeSym (1 ≤ order)) else none
    orderMinus1Freqs := ⟨List.replicate symbolLimit 1⟩ }

/-- Modelled from the spec: `incrementContexts(history, symbol)` (section 4.2):
update the node of every order 0..min(N, len(history)) along the history. -/
def PpmModel.incrementContexts (m : PpmModel) (history : List Nat) (symbol : Nat) : PpmModel :=
  match m.rootContext with
  | none => m
  | some root =>
    let n := m.modelOrder.toNat
    let root2 := incPath m.symbolLimit m.escapeSymbol symbol n root (history.take n)
    { m with rootContext := some root2 }

/-! Translation of `decodeSymbol` (PpmDecompress.cpp lines 89-112).  The
instrumented result additionally records, in order, every arithmetic-coder
read performed (the table read and the symbol it produced) and whether the
returned symbol came from the order −1 fallback read of line 111. -/

/-- Result of one `decodeSymbol` call, with the trace of coder reads. -/
structure DecodeResult where
  symbol : Nat
  dec : Decoder
  reads : List (FreqTable × Nat)
  fromFallback : Bool

/-- Inner walk of `decodeSymbol` (lines 94-101): follow the history prefix from
the root; an empty `subcontexts` vector raises `std::logic_error("Assertion
error")` (line 97), an index beyond the vector raises `std::out_of_range` from
`vector::at` (line 98), a null child means "context does not exist" (lines
99-100, the `goto outerEnd`). -/
def walkCtx : Context → List Nat → Except CppExc (Option Context)
  | ctx, [] => .ok (some ctx)
  | ctx, s :: rest =>
    if ctx.subcontexts.isEmpty then .error (.stdLogicError "Assertion error")
    else
      match ctx.subcontexts.get? s with
      | none => .error (.stdOutOfRange "vector::at")
      | some none => .ok none
      | some (some c) => walkCtx c rest

/-- Fallback read against the order −1 table (line 111). -/
def decodeFallback (m : PpmModel) (d : Decoder) (acc : List (FreqTable × Nat)) :
    Except CppExc DecodeResult :=
  match d.read m.orderMinus1Freqs with
  | .error e => .error e
  | .ok sd =>
    .ok { symbol := sd.1, dec := sd.2, reads := acc ++ [(m.orderMinus1Freqs, sd.1)]
          fromFallback := true }

/-- One iteration of the outer loop of `decodeSymbol` at a given order (lines
93-108): walk to the node of the order-length history prefix; a missing node
skips to the next lower order (`inr`, no coder read); an existing node is read
once, returning the symbol if it is below 256 (`inl`) and escaping to the next
lower order otherwise (`inr`). -/
def decodeTryOrder (history : List Nat) (root : Context) (o : Nat)
    (d : Decoder) (acc : List (FreqTable × Nat)) :
    Except CppExc (DecodeResult ⊕ (Decoder × List (FreqTable × Nat))) :=
  match walkCtx root (history.take o) with
  | .error e => .error e
  | .ok none => .ok (.inr (d, acc))
  | .ok (some ctx) =>
    match d.read ctx.frequencies with
    | .error e => .error e
    | .ok sd =>
      if sd.1 < 256 then
        .ok (.inl { symbol := sd.1, dec := sd.2
                    reads := acc ++ [(ctx.frequencies, sd.1)], fromFallback := false })
      else .ok (.inr (sd.2, acc ++ [(ctx.frequencies, sd.1)]))

/-- Outer loop of `decodeSymbol` (line 93): orders from `len(history)` down to
0 inclusive, then the order −1 fallback (lines 110-111). -/
def decodeFromOrder (m : PpmModel) (history : List Nat) (root : Context) :
    Nat → Decoder → List (FreqTable × Nat) → Except CppExc DecodeResult
  | 0, d, acc =>
    match decodeTryOrder history root 0 d acc with
    | .error e => .error e
    | .ok (.inl r) => .ok r
    | .ok (.inr da) => decodeFallback m da.1 da.2
  | o + 1, d, acc =>
    match decodeTryOrder history root (o + 1) d acc with
    | .error e => .error e
    | .ok (.inl r) => .ok r
    | .ok (.inr da) => decodeFromOrder m history root o da.1 da.2

/-- `decodeSymbol(dec, model, history)` of PpmDecompress.cpp (lines 89-112),
instrumented with the read trace.  The source dereferences
`model.rootContext.get()` without a null check (line 94); at model order −1 no
root context exists and the dereference is undefined behaviour, modelled as the
`nullDeref` error. -/
def decodeSymbolTr (d : Decoder) (m : PpmModel) (history : List Nat) :
    Except CppExc DecodeResult :=
  match m.rootContext with
  | none => .error .nullDeref
  | some root => decodeFromOrder m history root history.length d []

/-- Context lookup written from the spec's words: `contextsForHistory` follows
the tree by successive history symbols and "stops early at the first order
where the required child node does not yet exist" (section 4.2); a missing or
out-of-range child slot simply means the context does not exist. -/
def Context.lookup : Context → List Nat → Option Context
  | ctx, [] => some ctx
  | ctx, s :: rest =>
    match ctx.subcontexts.get? s with
    | none => none
    | some none => none
    | some (some c) => Context.lookup c rest

/-- The symbol-codec walk written from the spec's words (section 4.3): walk
`order` from `len(history)` down to 0 inclusive; obtain the Context Node for
the order-length history prefix; if it does not exist, continue to the next
lower order without any coder operation; otherwise decode against that node's
table, continuing on `escapeSymbol` and stopping on a real symbol; if the walk
exhausts all orders, fall back to the order −1 table. -/
def specWalkOrder (m : PpmModel) (history : List Nat) (root : Context) :
    Nat → Decoder → List (FreqTable × Nat) → Except CppExc DecodeResult
  | 0, d, acc =>
    match Context.lookup root (history.take 0) with
    | none => decodeFallback m d acc
    | some ctx =>
      match d.read ctx.frequencies with
      | .error e => .error e
      | .ok sd =>
        if sd.1 = m.escapeSymbol then decodeFallback m sd.2 (acc ++ [(ctx.frequencies, sd.1)])
        else
          .ok { symbol := sd.1, dec := sd.2
                reads := acc ++ [(ctx.frequencies, sd.1)], fromFallback := false }
  | o + 1, d, acc =>
    match Context.lookup root (history.take (o + 1)) with
    | none => specWalkOrder m history root o d acc
    | some ctx =>
      match d.read ctx.frequencies with
      | .error e => .error e
      | .ok sd =>
        if sd.1 = m.escapeSymbol then
          specWalkOrder m history root o sd.2 (acc ++ [(ctx.frequencies, sd.1)])
        else
          .ok { symbol := sd.1, dec := sd.2
                reads := acc ++ [(ctx.frequencies, sd.1)], fromFallback := false }

/-- `decodeOneSymbol(history)` written from the spec's words (sections 4.2 and
4.3); with no order-0 node (model order −1) the walk degenerates to the
order −1 fallback alone. -/
def specDecodeOneSymbol (d : Decoder) (m : PpmModel) (history : List Nat) :
    Except CppExc DecodeResult :=
  match m.rootContext with
  | none => decodeFallback m d []
  | some root => specWalkOrder m history root history.length d []

/-! Translation of `decompress` and `main` (PpmDecompress.cpp lines 29-86 and
37-57). -/

/-- The `MODEL_ORDER` constant of PpmDecompress.cpp (line 30). -/
def MODEL_ORDER : Int := 3

/-- Record of one symbol resolved by the loop: the history in effect while it
was decoded, the symbol, and whether it came from the order −1 fallback. -/
structure SymRecord where
  historyBefore : List Nat
  symbol : Nat
  readsCount : Nat
  fromFallback : Bool
deriving DecidableEq, Repr

/-- Mutable state of the `decompress` loop (lines 64-66), instrumented with the
output bytes written, the trace of `incrementContexts` calls (line 77) and the
trace of resolved symbols (line 70). -/
structure LoopSt where
  dec : Decoder
  model : PpmModel
  history : List Nat
  out : List Nat
  incCalls : List (List Nat × Nat)
  recs : List SymRecord

/-- Body of one literal-symbol iteration of the loop (lines 73-84): write the
byte, call `incrementContexts(history, symbol)`, then, when the model order is
at least 1, drop the oldest history entry if the history is full and prepend
the symbol. -/
def loopBody (st : LoopSt) (r : DecodeResult) : LoopSt :=
  let model2 := st.model.incrementContexts st.history r.symbol
  let history2 :=
    if 1 ≤ st.model.modelOrder then
      r.symbol ::
        (if st.model.modelOrder ≤ (st.history.length : Int) then st.history.dropLast
         else st.history)
    else st.history
  { dec := r.dec, model := model2, history := history2
    out := st.out ++ [r.symbol]
    incCalls := st.incCalls ++ [(st.history, r.symbol)]
    recs := st.recs ++ [{ historyBefore := st.history, symbol := r.symbol
                          readsCount := r.reads.length, fromFallback := r.fromFallback }] }

/-- State at the `break` of line 72: the EOF symbol has been resolved (and is
recorded), the decoder has advanced, and nothing else changes. -/
def eofSt (st : LoopSt) (r : DecodeResult) : LoopSt :=
  { st with dec := r.dec
            recs := st.recs ++ [{ historyBefore := st.history, symbol := r.symbol
                                  readsCount := r.reads.length
                                  fromFallback := r.fromFallback }] }

/-- Result of running the loop with bounded fuel; `timeout` marks fuel
exhaustion (the C++ loop would simply continue). -/
inductive DResult where
  | done (st : LoopSt)
  | fail (e : CppExc)
  | timeout (st : LoopSt)

/-- The `while (true)` loop of `decompress` (lines 68-85): decode one symbol;
on symbol 256 break; otherwise write the byte, update the model once via
`incrementContexts`, rebuild the history and continue. -/
def decompressLoop : Nat → LoopSt → DResult
  | 0, st => .timeout st
  | fuel + 1, st =>
    match decodeSymbolTr st.dec st.model st.history with
    | .error e => .fail e
    | .ok r =>
      if r.symbol = 256 then .done (eofSt st r)
      else decompressLoop fuel (loopBody st r)

/-- Initial loop state of `decompress` (lines 64-66) for a given model order:
fresh decoder over the input bits, fresh model `PpmModel(order, 257, 256)`,
empty history. -/
def initSt (order : Int) (bits : List Bool) : LoopSt :=
  { dec := Decoder.init bits
    model := PpmModel.mkInit order 257 256
    history := []
    out := []
    incCalls := []
    recs := [] }

/-- `decompress` with the model order left as the configuration constant it is
in the source (line 30 requires it to be at least −1). -/
def decompressWithOrder (order : Int) (bits : List Bool) (fuel : Nat) : DResult :=
  decompressLoop fuel (initSt order bits)

/-- `decompress(in, out)` as compiled: model order `MODEL_ORDER = 3`. -/
def decompress3 (bits : List Bool) (fuel : Nat) : DResult :=
  decompressWithOrder MODEL_ORDER bits fuel

/-- The byte adjustment of lines 73-76: `int b = symbol;` then, on platforms
with signed `char`, `b -= (b >> 7) << 8` before `out.put(char(b))`.  For the
non-negative `b` values that occur, `b >> 7` is `b / 2^7` and `x << 8` is
`x * 2^8`. -/
def adjustByte (s : Nat) : Int :=
  (s : Int) - ((s / 2 ^ 7 : Nat) : Int) * 2 ^ 8

/-- Process exit behaviour of `main`: `EXIT_SUCCESS`, `EXIT_FAILURE`, or
termination by an uncaught exception (`std::terminate`). -/
inductive MainResult where
  | exitSuccess
  | exitFailure
  | abnormalTermination
deriving DecidableEq, Repr

/-- The try/catch of `main` (lines 50-56): a normal return of `decompress`
yields `EXIT_SUCCESS`; a thrown `const char *` is caught and yields
`EXIT_FAILURE`; any other exception type — including the
`std::logic_error("Assertion error")` thrown by `decodeSymbol` (line 97) — is
not matched by `catch (const char *msg)` and terminates the process. -/
def runMain (res : Except CppExc Unit) : MainResult :=
  match res with
  | .ok _ => .exitSuccess
  | .error (.constCharPtr _) => .exitFailure
  | .error _ => .abnormalTermination

/-! Helper projections used to state closed (binder-free) facts about runs. -/

/-- The final loop state of a run that did not fail, if any. -/
def DResult.finalSt : DResult → Option LoopSt
  | .done st => some st
  | .timeout st => some st
  | .fail _ => none

/-- Whether a run reached the `break` of line 72. -/
def DResult.isDone : DResult → Bool
  | .done _ => true
  | _ => false

/-- The final loop state of a run that did not fail, with a default. -/
def DResult.stOrElse (r : DResult) (d : LoopSt) : LoopSt :=
  match r.finalSt with
  | some st => st
  | none => d

/-- The payload of a successful `Except`, with a default. -/
def okOr (x : Except CppExc DecodeResult) (d : DecodeResult) : DecodeResult :=
  match x with
  | .ok r => r
  | .error _ => d

/-- The `(history, symbol)` pairs of the literal records of a trace: one per
resolved symbol below 256, none for symbol 256. -/
def litPairs (recs : List SymRecord) : List (List Nat × Nat) :=
  recs.filterMap (fun r => if r.symbol = 256 then none else some (r.historyBefore, r.symbol))

/-- The history demanded by the spec's History data model: the most recent
output symbols, most-recent-first, truncated to the model order. -/
def histLaw (n : Nat) (outList : List Nat) : List Nat := outList.reverse.take n

/-- A compressed stream of 32 one-bits: its 32-bit `code` register is all ones,
which the very first order −1 read resolves to symbol 256 (end of stream). -/
def onesBits : List Bool := List.replicate 32 true

/-- Default decode result used by the `okOr` projection. -/
def dfltR : DecodeResult :=
  { symbol := 0, dec := Decoder.init [], reads := [], fromFallback := false }

/-- A type-correct but malformed model: its root context carries no child
table although the model order is 3.  Walking any non-empty history through it
reaches the `throw std::logic_error("Assertion error")` of line 97. -/
def badModel : PpmModel :=
  { modelOrder := 3
    symbolLimit := 257
    escapeSymbol := 256
    rootContext := some (.mk ⟨List.replicate 257 1⟩ [])
    orderMinus1Freqs := ⟨List.replicate 257 1⟩ }

/-- The reference parameters of the C++ `decodeSymbol(dec, model, history)`:
`dec` and `model` are taken by mutable reference, `history` by const
reference. -/
structure MutableEnv where
  dec : Decoder
  model : PpmModel
  history : List Nat

/-- `decodeSymbol` viewed as a transformer of its whole mutable environment:
the body reads `model` and `history` and advances only the decoder. -/
def decodeSymbolMut (env : MutableEnv) : Except CppExc (Nat × MutableEnv) :=
  match decodeSymbolTr env.dec env.model env.history with
  | .error e => .error e
  | .ok r => .ok (r.symbol, { env with dec := r.dec })

/-- The payload of a successful `decodeSymbolMut`, with a default. -/
def mutOr (x : Except CppExc (Nat × MutableEnv)) (d : Nat × MutableEnv) : Nat × MutableEnv :=
  match x with
  | .ok p => p
  | .error _ => d

/-- Outcome of one iteration of the `while (true)` loop: continue with a new
state, break out of the loop, or propagate an exception. -/
inductive StepRes where
  | next (st : LoopSt)
  | halt (st : LoopSt)
  | failure (e : CppExc)

/-- One iteration of the `decompress` loop (lines 68-85) as a step relation:
decode one symbol, then either break (symbol 256), continue with the updated
state, or propagate the exception. -/
inductive LoopStep : LoopSt → StepRes → Prop where
  | lit (st : LoopSt) (r : DecodeResult)
      (hd : decodeSymbolTr st.dec st.model st.history = .ok r) (hs : r.symbol ≠ 256) :
      LoopStep st (.next (loopBody st r))
  | eof (st : LoopSt) (r : DecodeResult)
      (hd : decodeSymbolTr st.dec st.model st.history = .ok r) (hs : r.symbol = 256) :
      LoopStep st (.halt (eofSt st r))
  | err (st : LoopSt) (e : CppExc)
      (hd : decodeSymbolTr st.dec st.model st.history = .error e) :
      LoopStep st (.failure e)

/-- Outcome of a whole `decompress` run. -/
inductive RunRes where
  | finished (st : LoopSt)
  | failed (e : CppExc)

/-- A whole run of the `decompress` loop, as the reflexive-transitive closure
of `LoopStep` ending in a break or an exception. -/
inductive LoopRun : LoopSt → RunRes → Prop where
  | halt {st st2 : LoopSt} (h : LoopStep st (.halt st2)) : LoopRun st (.finished st2)
  | failed {st : LoopSt} {e : CppExc} (h : LoopStep st (.failure e)) : LoopRun st (.failed e)
  | step {st st2 : LoopSt} {res : RunRes} (h : LoopStep st (.next st2))
      (htail : LoopRun st2 res) : LoopRun st res

/-- Structural well-formedness of a context node with `n` orders remaining
below it: its table has 257 slots; it carries a full child table exactly when
`n > 0`; children are well-formed one level lower.  Every node arising in a
session of `PpmModel(N, 257, 256)` at depth `d` satisfies this with
`n = N − d`. -/
def ContextWF : Nat → Context → Prop
  | 0, ctx => ctx.frequencies.counts.length = 257 ∧ ctx.subcontexts = []
  | n + 1, ctx =>
    ctx.frequencies.counts.length = 257 ∧ ctx.subcontexts.length = 257 ∧
      ∀ s c, ctx.subcontexts.get? s = some (some c) → ContextWF n c

/-- Well-formedness of a session model of non-negative order `N`: the fixed
parameters of `PpmModel(N, 257, 256)` and a well-formed root. -/
def ModelWF (N : Nat) (m : PpmModel) : Prop :=
  m.modelOrder = (N : Int) ∧ m.escapeSymbol = 256 ∧
    m.orderMinus1Freqs.counts.length = 257 ∧
    ∃ root, m.rootContext = some root ∧ ContextWF N root

/-! Theorems. -/

/-- C10: for every decoded literal symbol `s` in 0..255, the signed-char
adjustment `b -= (b >> 7) << 8` of lines 73-76 leaves values below 128
unchanged, maps 128..255 to `s − 256`, keeps the result within the signed
`char` range, and preserves the 8-bit pattern (`adjustByte s ≡ s (mod 256)`),
so the byte written to the output stream has unsigned value `s`. -/
theorem C10_byte_adjustment (s : Nat) (h : s < 256) :
    (s < 128 → adjustByte s = (s : Int)) ∧
    (128 ≤ s → adjustByte s = (s : Int) - 256) ∧
    adjustByte s % 256 = (s : Int) ∧
    -128 ≤ adjustByte s ∧ adjustByte s ≤ 127 := by
  have h7 : s / 2 ^ 7 = 0 ∨ s / 2 ^ 7 = 1 := by omega
  unfold adjustByte
  rcases h7 with h7 | h7 <;> rw [h7] <;> push_cast <;>
    refine ⟨?_, ?_, ?_, ?_, ?_⟩ <;> omega

/-- Witness for C10 at the concrete literal 200. -/
theorem C10_witness :
    (200 < 128 → adjustByte 200 = (200 : Int)) ∧
    (128 ≤ 200 → adjustByte 200 = (200 : Int) - 256) ∧
    adjustByte 200 % 256 = (200 : Int) ∧
    -128 ≤ adjustByte 200 ∧ adjustByte 200 ≤ 127 :=
  C10_byte_adjustment 200 (by decide)

/-- C8 counterexample: the `std::logic_error("Assertion error")` thrown by
`decodeSymbol` (line 97, reached here by a model whose root lacks a child
table) is not matched by `main`'s `catch (const char *msg)` (line 53), so it
terminates the process instead of returning `EXIT_FAILURE` through the failure
path. -/
theorem C8_counterexample :
    decodeSymbolTr (Decoder.init []) badModel [0] =
        .error (.stdLogicError "Assertion error") ∧
    runMain (.error (.stdLogicError "Assertion error")) = .abnormalTermination ∧
    runMain (.error (.stdLogicError "Assertion error")) ≠ .exitFailure :=
  ⟨rfl, rfl, by decide⟩

/-- C8 (amended): `main` returns `EXIT_SUCCESS` exactly when `decompress`
completes normally and no error path ever reports success; but only errors
thrown as `const char *` messages return `EXIT_FAILURE` through the catch
handler, while class exceptions such as the `std::logic_error` raised by
`decodeSymbol` escape `catch (const char *msg)` and terminate the process
abnormally. -/
theorem C8_exit_paths :
    runMain (.ok ()) = .exitSuccess ∧
    (∀ e : CppExc, runMain (.error e) ≠ .exitSuccess) ∧
    (∀ msg : String, runMain (.error (.constCharPtr msg)) = .exitFailure) ∧
    (∀ msg : String, runMain (.error (.stdLogicError msg)) = .abnormalTermination) := by
  refine ⟨rfl, ?_, fun _ => rfl, fun _ => rfl⟩
  intro e
  cases e <;> simp [runMain]

/-- Witness for C8 at a concrete message. -/
theorem C8_witness : runMain (.error (.constCharPtr "error")) = .exitFailure :=
  C8_exit_paths.2.2.1 "error"

set_option maxRecDepth 200000 in
/-- C1 counterexample: on the 32-one-bit stream the decompressor resolves the
true end-of-stream marker (its symbol trace is exactly `[256]`) and the run
completes, yet no `incrementContexts` call at all is made — line 72 breaks out
of the loop before line 77. -/
theorem C1_counterexample :
    (decompress3 onesBits 2).isDone = true ∧
    (DResult.stOrElse (decompress3 onesBits 2) (initSt 3 [])).incCalls = [] ∧
    ((DResult.stOrElse (decompress3 onesBits 2) (initSt 3 [])).recs.map SymRecord.symbol) =
      [256] :=
  ⟨rfl, rfl, rfl⟩

/-- C1 (amended): during any decompression run, `incrementContexts` is called
exactly once for each resolved literal symbol 0..255, with the history that
was in effect while that symbol was decoded, in resolution order (so before
the next symbol); it is not called for the end-of-stream marker 256, whose
resolution exits the loop before any model update. -/
theorem C1_increment_calls (fuel : Nat) (st st2 : LoopSt)
    (hinv : st.incCalls = litPairs st.recs)
    (hrun : (decompressLoop fuel st).finalSt = some st2) :
    st2.incCalls = litPairs st2.recs := by
  induction fuel generalizing st with
  | zero =>
    simp only [decompressLoop, DResult.finalSt, Option.some.injEq] at hrun
    exact hrun ▸ hinv
  | succ n ih =>
    simp only [decompressLoop] at hrun
    cases hd : decodeSymbolTr st.dec st.model st.history with
    | error e =>
      simp only [hd, DResult.finalSt] at hrun
      exact Option.noConfusion hrun
    | ok r =>
      simp only [hd] at hrun
      by_cases h256 : r.symbol = 256
      · rw [if_pos h256] at hrun
        simp only [DResult.finalSt, Option.some.injEq] at hrun
        subst hrun
        simp [eofSt, litPairs, List.filterMap_append, h256, hinv]
      · rw [if_neg h256] at hrun
        exact ih (loopBody st r)
          (by simp [loopBody, litPairs, List.filterMap_append, hinv, h256]) hrun

set_option maxRecDepth 200000 in
/-- Witness for C1 on a one-step run over the empty bit stream. -/
theorem C1_witness :
    (DResult.stOrElse (decompressLoop 1 (initSt 3 [])) (initSt 3 [])).incCalls =
      litPairs ((DResult.stOrElse (decompressLoop 1 (initSt 3 [])) (initSt 3 [])).recs) :=
  C1_increment_calls 1 (initSt 3 []) _ rfl rfl

/-- Helper: a successful fallback read reports `fromFallback` and appends
exactly one read, against the order −1 table. -/
lemma decodeFallback_ok (m : PpmModel) (d : Decoder) (acc : List (FreqTable × Nat))
    (r : DecodeResult) (h : decodeFallback m d acc = .ok r) :
    r.fromFallback = true ∧ r.reads = acc ++ [(m.orderMinus1Freqs, r.symbol)] := by
  unfold decodeFallback at h
  cases hr : d.read m.orderMinus1Freqs with
  | error e => simp only [hr] at h; exact Except.noConfusion h
  | ok sd =>
    simp only [hr, Except.ok.injEq] at h
    subst h
    exact ⟨rfl, rfl⟩

/-- Helper: a resolving iteration of the outer walk returns a literal below
256, not from the fallback, appending exactly one read. -/
lemma decodeTryOrder_inl (history : List Nat) (root : Context) (o : Nat) (d : Decoder)
    (acc : List (FreqTable × Nat)) (r : DecodeResult)
    (h : decodeTryOrder history root o d acc = .ok (.inl r)) :
    r.symbol < 256 ∧ r.fromFallback = false ∧ r.reads.length = acc.length + 1 := by
  unfold decodeTryOrder at h
  cases hw : walkCtx root (history.take o) with
  | error e => simp only [hw] at h; exact Except.noConfusion h
  | ok oc =>
    cases oc with
    | none =>
      simp only [hw, Except.ok.injEq] at h
      exact Sum.noConfusion h
    | some ctx =>
      simp only [hw] at h
      cases hr : d.read ctx.frequencies with
      | error e => simp only [hr] at h; exact Except.noConfusion h
      | ok sd =>
        simp only [hr] at h
        by_cases hlt : sd.1 < 256
        · rw [if_pos hlt] at h
          simp only [Except.ok.injEq, Sum.inl.injEq] at h
          subst h
          exact ⟨hlt, rfl, by simp⟩
        · rw [if_neg hlt] at h
          simp only [Except.ok.injEq] at h
          exact Sum.noConfusion h

/-- Helper: a non-resolving iteration of the outer walk keeps the accumulated
reads or appends exactly one (an escape read). -/
lemma decodeTryOrder_inr (history : List Nat) (root : Context) (o : Nat) (d : Decoder)
    (acc : List (FreqTable × Nat)) (da : Decoder × List (FreqTable × Nat))
    (h : decodeTryOrder history root o d acc = .ok (.inr da)) :
    da.2 = acc ∨ da.2.length = acc.length + 1 := by
  unfold decodeTryOrder at h
  cases hw : walkCtx root (history.take o) with
  | error e => simp only [hw] at h; exact Except.noConfusion h
  | ok oc =>
    cases oc with
    | none =>
      simp only [hw, Except.ok.injEq, Sum.inr.injEq] at h
      subst h
      exact Or.inl rfl
    | some ctx =>
      simp only [hw] at h
      cases hr : d.read ctx.frequencies with
      | error e => simp only [hr] at h; exact Except.noConfusion h
      | ok sd =>
        simp only [hr] at h
        by_cases hlt : sd.1 < 256
        · rw [if_pos hlt] at h
          simp only [Except.ok.injEq] at h
          exact Sum.noConfusion h
        · rw [if_neg hlt] at h
          simp only [Except.ok.injEq, Sum.inr.injEq] at h
          subst h
          exact Or.inr (by simp)

/-- Helper: shape of every successful `decodeFromOrder` outcome — symbol 256
can only come from the order −1 fallback, non-fallback returns are literals,
and the number of reads grows by at least 1 and at most `o + 2` over the
accumulator. -/
lemma decodeFromOrder_shape (m : PpmModel) (history : List Nat) (root : Context) :
    ∀ (o : Nat) (d : Decoder) (acc : List (FreqTable × Nat)) (r : DecodeResult),
      decodeFromOrder m history root o d acc = .ok r →
      (r.symbol = 256 → r.fromFallback = true) ∧
      (r.fromFallback = false → r.symbol < 256) ∧
      acc.length + 1 ≤ r.reads.length ∧ r.reads.length ≤ acc.length + o + 2 := by
  intro o
  induction o with
  | zero =>
    intro d acc r h
    simp only [decodeFromOrder] at h
    cases htry : decodeTryOrder history root 0 d acc with
    | error e => simp only [htry] at h; exact Except.noConfusion h
    | ok v =>
      cases v with
      | inl r0 =>
        simp only [htry, Except.ok.injEq] at h
        subst h
        obtain ⟨h1, h2, h3⟩ := decodeTryOrder_inl history root 0 d acc r0 htry
        refine ⟨fun hc => ?_, fun _ => h1, by omega, by omega⟩
        omega
      | inr da =>
        simp only [htry] at h
        obtain ⟨h1, h2⟩ := decodeFallback_ok m da.1 da.2 r h
        have hlen : r.reads.length = da.2.length + 1 := by rw [h2]; simp
        have h2f : r.fromFallback = false → r.symbol < 256 := by
          intro hc
          rw [h1] at hc
          exact Bool.noConfusion hc
        rcases decodeTryOrder_inr history root 0 d acc da htry with h3 | h3
        · rw [h3] at hlen
          exact ⟨fun _ => h1, h2f, by omega, by omega⟩
        · exact ⟨fun _ => h1, h2f, by omega, by omega⟩
  | succ o ih =>
    intro d acc r h
    simp only [decodeFromOrder] at h
    cases htry : decodeTryOrder history root (o + 1) d acc with
    | error e => simp only [htry] at h; exact Except.noConfusion h
    | ok v =>
      cases v with
      | inl r0 =>
        simp only [htry, Except.ok.injEq] at h
        subst h
        obtain ⟨h1, h2, h3⟩ := decodeTryOrder_inl history root (o + 1) d acc r0 htry
        refine ⟨fun hc => ?_, fun _ => h1, by omega, by omega⟩
        omega
      | inr da =>
        simp only [htry] at h
        obtain ⟨h1, h2, h3, h4⟩ := ih da.1 da.2 r h
        rcases decodeTryOrder_inr history root (o + 1) d acc da htry with h5 | h5
        · rw [h5] at h3 h4
          exact ⟨h1, h2, by omega, by omega⟩
        · exact ⟨h1, h2, by omega, by omega⟩

/-- Helper: shape of every successful `decodeSymbol` call. -/
lemma decodeSymbolTr_shape (d : Decoder) (m : PpmModel) (history : List Nat)
    (r : DecodeResult) (h : decodeSymbolTr d m history = .ok r) :
    (r.symbol = 256 → r.fromFallback = true) ∧
    (r.fromFallback = false → r.symbol < 256) ∧
    1 ≤ r.reads.length ∧ r.reads.length ≤ history.length + 2 := by
  unfold decodeSymbolTr at h
  cases hr : m.rootContext with
  | none => rw [hr] at h; cases h
  | some root =>
    rw [hr] at h
    have hs := decodeFromOrder_shape m history root history.length d [] r h
    simpa using hs

/-- C5 (amended): every `decodeSymbol` call performs at least 1 and at most
`len(history) + 2` arithmetic-coder reads: one per existing context at orders
`len(history)` down to 0 that escapes, plus the final resolving read, which may
be the order −1 fallback read after an escape at every non-negative order. -/
theorem C5_read_count_bounds (d : Decoder) (m : PpmModel) (history : List Nat)
    (r : DecodeResult) (h : decodeSymbolTr d m history = .ok r) :
    1 ≤ r.reads.length ∧ r.reads.length ≤ history.length + 2 :=
  (decodeSymbolTr_shape d m history r h).2.2

set_option maxRecDepth 200000 in
/-- C5 counterexample: on the empty bit stream with an empty history the very
first `decodeSymbol` performs 2 coder reads (the root context read resolves
the escape symbol, then the order −1 fallback read resolves the literal),
exceeding the claimed bound `len(history) + 1 = 1`. -/
theorem C5_counterexample :
    (okOr (decodeSymbolTr (Decoder.init []) (PpmModel.mkInit 3 257 256) []) dfltR).reads.length
        = 2 ∧
    ¬ ((okOr (decodeSymbolTr (Decoder.init []) (PpmModel.mkInit 3 257 256) [])
          dfltR).reads.length ≤ ([] : List Nat).length + 1) :=
  ⟨rfl, by decide⟩

set_option maxRecDepth 200000 in
/-- Witness for C5 on the first symbol of the empty bit stream. -/
theorem C5_witness :
    1 ≤ (okOr (decodeSymbolTr (Decoder.init []) (PpmModel.mkInit 3 257 256) [])
          dfltR).reads.length ∧
    (okOr (decodeSymbolTr (Decoder.init []) (PpmModel.mkInit 3 257 256) [])
          dfltR).reads.length ≤ ([] : List Nat).length + 2 :=
  C5_read_count_bounds (Decoder.init []) (PpmModel.mkInit 3 257 256) [] _ rfl

/-- C3: symbol 256 resolved at a non-negative-order context is always an
escape and never terminates the session — a returned 256 always comes from the
order −1 fallback read, and non-fallback returns are literals below 256; the
decompression loop breaks exactly on a returned 256 (its final symbol record
is a fallback 256) and continues on every literal. -/
theorem C3_eof_only_from_fallback :
    (∀ (d : Decoder) (m : PpmModel) (history : List Nat) (r : DecodeResult),
        decodeSymbolTr d m history = .ok r → r.symbol = 256 → r.fromFallback = true) ∧
    (∀ (d : Decoder) (m : PpmModel) (history : List Nat) (r : DecodeResult),
        decodeSymbolTr d m history = .ok r → r.fromFallback = false → r.symbol < 256) ∧
    (∀ (fuel : Nat) (st st2 : LoopSt), decompressLoop fuel st = .done st2 →
        ∃ pre rec, st2.recs = pre ++ [rec] ∧ rec.symbol = 256 ∧ rec.fromFallback = true) ∧
    (∀ (fuel : Nat) (st : LoopSt) (r : DecodeResult),
        decodeSymbolTr st.dec st.model st.history = .ok r → r.symbol = 256 →
        decompressLoop (fuel + 1) st = .done (eofSt st r)) ∧
    (∀ (fuel : Nat) (st : LoopSt) (r : DecodeResult),
        decodeSymbolTr st.dec st.model st.history = .ok r → r.symbol ≠ 256 →
        decompressLoop (fuel + 1) st = decompressLoop fuel (loopBody st r)) := by
  refine ⟨?_, ?_, ?_, ?_, ?_⟩
  · intro d m history r h
    exact (decodeSymbolTr_shape d m history r h).1
  · intro d m history r h
    exact (decodeSymbolTr_shape d m history r h).2.1
  · intro fuel
    induction fuel with
    | zero => intro st st2 h; simp only [decompressLoop] at h; exact DResult.noConfusion h
    | succ n ih =>
      intro st st2 h
      simp only [decompressLoop] at h
      cases hd : decodeSymbolTr st.dec st.model st.history with
      | error e => simp only [hd] at h; exact DResult.noConfusion h
      | ok r =>
        simp only [hd] at h
        by_cases h256 : r.symbol = 256
        · rw [if_pos h256] at h
          have h2 : eofSt st r = st2 := by
            cases h
            rfl
          subst h2
          refine ⟨st.recs, _, rfl, h256, ?_⟩
          exact (decodeSymbolTr_shape st.dec st.model st.history r hd).1 h256
        · rw [if_neg h256] at h
          exact ih (loopBody st r) st2 h
  · intro fuel st r hd hs
    simp only [decompressLoop, hd]
    rw [if_pos hs]
  · intro fuel st r hd hs
    simp only [decompressLoop, hd]
    rw [if_neg hs]

set_option maxRecDepth 200000 in
/-- Witness for C3 on the 32-one-bit stream, whose first resolved symbol is
256 and indeed comes from the order −1 fallback. -/
theorem C3_witness :
    (okOr (decodeSymbolTr (Decoder.init onesBits) (PpmModel.mkInit 3 257 256) [])
        dfltR).fromFallback = true :=
  C3_eof_only_from_fallback.1 (Decoder.init onesBits) (PpmModel.mkInit 3 257 256) []
    (okOr (decodeSymbolTr (Decoder.init onesBits) (PpmModel.mkInit 3 257 256) []) dfltR)
    rfl rfl

/-- Helper: `incrementContexts` changes neither the model order nor the other
fixed parameters. -/
lemma incrementContexts_modelOrder (m : PpmModel) (history : List Nat) (s : Nat) :
    (m.incrementContexts history s).modelOrder = m.modelOrder := by
  unfold PpmModel.incrementContexts
  cases hr : m.rootContext <;> simp [hr]

/-- Helper: the prepend-and-truncate history update of lines 79-84 preserves
the history law `history = histLaw N out`. -/
lemma histLaw_update (N : Nat) (outList : List Nat) (sym : Nat) :
    (if 1 ≤ (N : Int) then
        sym :: (if (N : Int) ≤ ((histLaw N outList).length : Int) then (histLaw N outList).dropLast
                else histLaw N outList)
      else histLaw N outList) = histLaw N (outList ++ [sym]) := by
  cases N with
  | zero =>
    rw [if_neg (by norm_num)]
    simp [histLaw]
  | succ n =>
    rw [if_pos (by exact_mod_cast Nat.succ_le_succ (Nat.zero_le n))]
    unfold histLaw
    rw [show (outList ++ [sym]).reverse = sym :: outList.reverse by simp,
      List.take_succ_cons]
    by_cases hc : n + 1 ≤ outList.length
    · have hlen : (outList.reverse.take (n + 1)).length = n + 1 := by
        rw [List.length_take, List.length_reverse]
        omega
      rw [if_pos (by rw [hlen])]
      rw [List.dropLast_eq_take, hlen]
      rw [List.take_take]
      simp only [Nat.add_sub_cancel]
      rw [Nat.min_eq_left (by omega)]
    · have hlen : (outList.reverse.take (n + 1)).length = outList.length := by
        rw [List.length_take, List.length_reverse]
        omega
      have hcond : ¬ (((n + 1 : Nat) : Int) ≤ ((outList.reverse.take (n + 1)).length : Int)) := by
        rw [hlen]
        exact_mod_cast hc
      rw [if_neg hcond]
      rw [List.take_of_length_le (by rw [List.length_reverse]; omega),
        List.take_of_length_le (by rw [List.length_reverse]; omega)]

/-- Helper: from the per-record history law, every recorded history is bounded
by the model order. -/
lemma histBefore_bound (N : Nat) (recs : List SymRecord) (outList : List Nat)
    (h3 : recs.map SymRecord.historyBefore =
      (List.range recs.length).map (fun k => histLaw N (outList.take k))) :
    ∀ r ∈ recs, r.historyBefore.length ≤ N := by
  intro r hr
  have hmem : r.historyBefore ∈ recs.map SymRecord.historyBefore :=
    List.mem_map_of_mem _ hr
  rw [h3] at hmem
  obtain ⟨k, _, heq⟩ := List.mem_map.1 hmem
  rw [← heq]
  unfold histLaw
  rw [List.length_take]
  exact Nat.min_le_left _ _

/-- Helper: appending one record whose recorded history obeys the law extends
the per-record history law, for any output extension that preserves the
already-referenced output takes. -/
lemma recsMap_snoc (N : Nat) (recs : List SymRecord) (outList outNew : List Nat)
    (rec : SymRecord)
    (h2 : recs.length = outList.length)
    (h3 : recs.map SymRecord.historyBefore =
      (List.range recs.length).map (fun k => histLaw N (outList.take k)))
    (hrec : rec.historyBefore = histLaw N outList)
    (hpre : ∀ k, k ≤ outList.length → outNew.take k = outList.take k) :
    (recs ++ [rec]).map SymRecord.historyBefore =
      (List.range (recs.length + 1)).map (fun k => histLaw N (outNew.take k)) := by
  rw [List.map_append, List.range_succ, List.map_append]
  congr 1
  · rw [h3]
    apply List.map_congr_left
    intro k hk
    have hk2 : k < recs.length := List.mem_range.1 hk
    rw [hpre k (by omega)]
  · simp only [List.map_cons, List.map_nil]
    rw [hrec, hpre recs.length (by omega), h2, List.take_length]

/-- C4: throughout a decompression session the history is the sequence of the
most recent literal symbols, most-recent-first, truncated to the model order:
provided the state satisfies the history law, the final history and every
recorded in-effect history obey `histLaw` over the literal output decoded so
far (so the history is rebuilt exactly after each literal, by prepending and
dropping the oldest entry when full, and has length at most the model
order). -/
theorem C4_history_invariant (N : Nat) (fuel : Nat) (st st2 : LoopSt)
    (hN : st.model.modelOrder = (N : Int))
    (h1 : st.history = histLaw N st.out)
    (h2 : st.recs.length = st.out.length)
    (h3 : st.recs.map SymRecord.historyBefore =
      (List.range st.recs.length).map (fun k => histLaw N (st.out.take k)))
    (hrun : (decompressLoop fuel st).finalSt = some st2) :
    st2.history = histLaw N st2.out ∧
    st2.recs.map SymRecord.historyBefore =
      (List.range st2.recs.length).map (fun k => histLaw N (st2.out.take k)) ∧
    ∀ r ∈ st2.recs, r.historyBefore.length ≤ N := by
  induction fuel generalizing st with
  | zero =>
    simp only [decompressLoop, DResult.finalSt, Option.some.injEq] at hrun
    subst hrun
    exact ⟨h1, h3, histBefore_bound N st.recs st.out h3⟩
  | succ n ih =>
    simp only [decompressLoop] at hrun
    cases hd : decodeSymbolTr st.dec st.model st.history with
    | error e =>
      simp only [hd, DResult.finalSt] at hrun
      exact Option.noConfusion hrun
    | ok r =>
      simp only [hd] at hrun
      by_cases h256 : r.symbol = 256
      · rw [if_pos h256] at hrun
        simp only [DResult.finalSt, Option.some.injEq] at hrun
        subst hrun
        have hmap : (eofSt st r).recs.map SymRecord.historyBefore =
            (List.range (eofSt st r).recs.length).map
              (fun k => histLaw N ((eofSt st r).out.take k)) := by
          have hs := recsMap_snoc N st.recs st.out st.out
            { historyBefore := st.history, symbol := r.symbol,
              readsCount := r.reads.length, fromFallback := r.fromFallback }
            h2 h3 h1 (fun k _ => rfl)
          simp only [eofSt, List.length_append, List.length_cons, List.length_nil]
          simpa using hs
        exact ⟨h1, hmap, histBefore_bound N _ _ hmap⟩
      · rw [if_neg h256] at hrun
        refine ih (loopBody st r) ?_ ?_ ?_ ?_ hrun
        · simp only [loopBody]
          rw [incrementContexts_modelOrder]
          exact hN
        · simp only [loopBody]
          rw [hN, h1]
          exact histLaw_update N st.out r.symbol
        · simp only [loopBody]
          simp [h2]
        · simp only [loopBody]
          have hs := recsMap_snoc N st.recs st.out (st.out ++ [r.symbol])
            { historyBefore := st.history, symbol := r.symbol,
              readsCount := r.reads.length, fromFallback := r.fromFallback }
            h2 h3 h1 (fun k hk => List.take_append_of_le_length hk)
          simpa using hs

set_option maxRecDepth 200000 in
/-- Witness for C4 on a one-step run over the empty bit stream. -/
theorem C4_witness :
    (DResult.stOrElse (decompressLoop 1 (initSt 3 [])) (initSt 3 [])).history =
      histLaw 3 ((DResult.stOrElse (decompressLoop 1 (initSt 3 [])) (initSt 3 [])).out) :=
  (C4_history_invariant 3 1 (initSt 3 []) _ rfl rfl rfl rfl rfl).1

/-- Helper: the loop-step relation is deterministic. -/
lemma loopStep_det (st : LoopSt) (o1 o2 : StepRes)
    (h1 : LoopStep st o1) (h2 : LoopStep st o2) : o1 = o2 := by
  cases h1 with
  | lit r hd hs =>
    cases h2 with
    | lit r2 hd2 hs2 =>
      have h3 := hd.symm.trans hd2
      simp only [Except.ok.injEq] at h3
      rw [h3]
    | eof r2 hd2 hs2 =>
      have h3 := hd.symm.trans hd2
      simp only [Except.ok.injEq] at h3
      rw [h3] at hs
      exact absurd hs2 hs
    | err e hd2 =>
      have h3 := hd.symm.trans hd2
      exact Except.noConfusion h3
  | eof r hd hs =>
    cases h2 with
    | lit r2 hd2 hs2 =>
      have h3 := hd.symm.trans hd2
      simp only [Except.ok.injEq] at h3
      rw [h3] at hs
      exact absurd hs hs2
    | eof r2 hd2 hs2 =>
      have h3 := hd.symm.trans hd2
      simp only [Except.ok.injEq] at h3
      rw [h3]
    | err e hd2 =>
      have h3 := hd.symm.trans hd2
      exact Except.noConfusion h3
  | err e hd =>
    cases h2 with
    | lit r2 hd2 hs2 =>
      have h3 := hd.symm.trans hd2
      exact Except.noConfusion h3
    | eof r2 hd2 hs2 =>
      have h3 := hd.symm.trans hd2
      exact Except.noConfusion h3
    | err e2 hd2 =>
      have h3 := hd.symm.trans hd2
      simp only [Except.error.injEq] at h3
      rw [h3]

/-- C7: decompression is deterministic — two whole runs of the `decompress`
loop from the same state (hence the same input bit stream and model order)
reach the same outcome: identical final states (so identical output byte
sequences and final model states), and a failing run fails identically with
the same exception. -/
theorem C7_deterministic (st : LoopSt) (r1 r2 : RunRes)
    (h1 : LoopRun st r1) (h2 : LoopRun st r2) : r1 = r2 := by
  induction h1 generalizing r2 with
  | halt h =>
    cases h2 with
    | halt h2h =>
      have h3 := loopStep_det _ _ _ h h2h
      simp only [StepRes.halt.injEq] at h3
      rw [h3]
    | failed h2h =>
      have h3 := loopStep_det _ _ _ h h2h
      exact StepRes.noConfusion h3
    | step h2h htail2 =>
      have h3 := loopStep_det _ _ _ h h2h
      exact StepRes.noConfusion h3
  | failed h =>
    cases h2 with
    | halt h2h =>
      have h3 := loopStep_det _ _ _ h h2h
      exact StepRes.noConfusion h3
    | failed h2h =>
      have h3 := loopStep_det _ _ _ h h2h
      simp only [StepRes.failure.injEq] at h3
      rw [h3]
    | step h2h htail2 =>
      have h3 := loopStep_det _ _ _ h h2h
      exact StepRes.noConfusion h3
  | step h htail ih =>
    cases h2 with
    | halt h2h =>
      have h3 := loopStep_det _ _ _ h h2h
      exact StepRes.noConfusion h3
    | failed h2h =>
      have h3 := loopStep_det _ _ _ h h2h
      exact StepRes.noConfusion h3
    | step h2h htail2 =>
      have h3 := loopStep_det _ _ _ h h2h
      simp only [StepRes.next.injEq] at h3
      subst h3
      exact ih _ htail2

set_option maxRecDepth 200000 in
/-- Witness for C7: two derivations of the one-step run on the 32-one-bit
stream (which halts at once on the end-of-stream marker) reach equal
outcomes. -/
theorem C7_witness :
    RunRes.finished (eofSt (initSt 3 onesBits)
        (okOr (decodeSymbolTr (Decoder.init onesBits) (PpmModel.mkInit 3 257 256) []) dfltR)) =
      RunRes.finished (eofSt (initSt 3 onesBits)
        (okOr (decodeSymbolTr (Decoder.init onesBits) (PpmModel.mkInit 3 257 256) []) dfltR)) :=
  C7_deterministic (initSt 3 onesBits) _ _
    (LoopRun.halt (LoopStep.eof _ _ rfl rfl))
    (LoopRun.halt (LoopStep.eof _ _ rfl rfl))

/-- C9: `decodeSymbol` mutates neither the history nor the model — viewed over
its whole mutable environment it returns the model and the history unchanged —
and in the decompression loop the model after a literal iteration is exactly
the single `incrementContexts` call on the pre-state, while the break
iteration leaves both the model and the history untouched. -/
theorem C9_decode_frame :
    (∀ (env : MutableEnv) (s : Nat) (env2 : MutableEnv),
        decodeSymbolMut env = .ok (s, env2) →
        env2.model = env.model ∧ env2.history = env.history) ∧
    (∀ (st : LoopSt) (r : DecodeResult),
        (loopBody st r).model = st.model.incrementContexts st.history r.symbol ∧
        (eofSt st r).model = st.model ∧ (eofSt st r).history = st.history) := by
  constructor
  · intro env s env2 h
    unfold decodeSymbolMut at h
    cases hd : decodeSymbolTr env.dec env.model env.history with
    | error e =>
      simp only [hd] at h
      exact Except.noConfusion h
    | ok r =>
      simp only [hd, Except.ok.injEq, Prod.mk.injEq] at h
      obtain ⟨-, henv⟩ := h
      subst henv
      exact ⟨rfl, rfl⟩
  · intro st r
    exact ⟨rfl, rfl, rfl⟩

set_option maxRecDepth 200000 in
/-- Witness for C9 on the first decode of the empty bit stream. -/
theorem C9_witness :
    (mutOr (decodeSymbolMut
        { dec := Decoder.init [], model := PpmModel.mkInit 3 257 256, history := [] })
        (0, { dec := Decoder.init [], model := PpmModel.mkInit 3 257 256, history := [] })).2.model =
      ({ dec := Decoder.init [], model := PpmModel.mkInit 3 257 256,
         history := [] } : MutableEnv).model :=
  (C9_decode_frame.1
    { dec := Decoder.init [], model := PpmModel.mkInit 3 257 256, history := [] }
    (mutOr (decodeSymbolMut
        { dec := Decoder.init [], model := PpmModel.mkInit 3 257 256, history := [] })
        (0, { dec := Decoder.init [], model := PpmModel.mkInit 3 257 256, history := [] })).1
    (mutOr (decodeSymbolMut
        { dec := Decoder.init [], model := PpmModel.mkInit 3 257 256, history := [] })
        (0, { dec := Decoder.init [], model := PpmModel.mkInit 3 257 256, history := [] })).2
    rfl).1

/-- Helper: a well-formed node's table has 257 slots. -/
lemma ContextWF_freqLen (n : Nat) (ctx : Context) (h : ContextWF n ctx) :
    ctx.frequencies.counts.length = 257 := by
  cases n with
  | zero => exact h.1
  | succ n => exact h.1

/-- Helper: the cumulative search returns an in-range symbol. -/
lemma findSymbol_lt (t : FreqTable) (v s : Nat) (h : t.findSymbol v = some s) :
    s < t.counts.length := by
  unfold FreqTable.findSymbol at h
  exact List.mem_range.1 (List.mem_of_find?_eq_some h)

/-- Helper: a successful coder read returns an in-range symbol. -/
lemma read_lt (d d2 : Decoder) (t : FreqTable) (s : Nat)
    (h : d.read t = .ok (s, d2)) : s < t.counts.length := by
  simp only [Decoder.read] at h
  split at h
  · exact Except.noConfusion h
  · rename_i s0 hf
    split at h
    · exact Except.noConfusion h
    · simp only [Except.ok.injEq, Prod.mk.injEq] at h
      obtain ⟨hs, -⟩ := h
      subst hs
      exact findSymbol_lt t _ s0 hf

/-- Helper: on a well-formed node, in-range history symbols, and a path no
longer than the remaining depth, the source's inner walk (with its assertion
and bounds-checked indexing) computes exactly the spec's context lookup. -/
lemma walkCtx_eq_lookup :
    ∀ (path : List Nat) (n : Nat) (ctx : Context),
      ContextWF n ctx → path.length ≤ n → (∀ s ∈ path, s < 257) →
      walkCtx ctx path = .ok (Context.lookup ctx path) := by
  intro path
  induction path with
  | nil => intro n ctx _ _ _; rfl
  | cons s rest ih =>
    intro n ctx hwf hlen hmem
    cases n with
    | zero => simp at hlen
    | succ n =>
      obtain ⟨hf, hsub, hch⟩ := hwf
      have hs : s < 257 := hmem s (List.mem_cons_self s rest)
      have hslt : s < ctx.subcontexts.length := by rw [hsub]; exact hs
      have hne : ¬ ctx.subcontexts.isEmpty = true := by
        simp only [List.isEmpty_iff]
        intro hnil
        rw [hnil] at hslt
        simp at hslt
      simp only [walkCtx, Context.lookup]
      rw [if_neg hne]
      cases hov : ctx.subcontexts.get? s with
      | none =>
        rw [List.get?_eq_get hslt] at hov
        exact Option.noConfusion hov
      | some oc =>
        cases oc with
        | none => rfl
        | some c =>
          have hcwf : ContextWF n c := hch s c hov
          have hlen2 : rest.length ≤ n := by simp at hlen; omega
          exact ih n c hcwf hlen2 (fun x hx => hmem x (List.mem_cons_of_mem s hx))

/-- Helper: a found context node is well-formed at the remaining depth. -/
lemma lookup_wf :
    ∀ (path : List Nat) (n : Nat) (ctx c : Context),
      ContextWF n ctx → path.length ≤ n → Context.lookup ctx path = some c →
      ContextWF (n - path.length) c := by
  intro path
  induction path with
  | nil =>
    intro n ctx c hwf _ h
    simp only [Context.lookup, Option.some.injEq] at h
    subst h
    simpa using hwf
  | cons s rest ih =>
    intro n ctx c hwf hlen h
    cases n with
    | zero => simp at hlen
    | succ n =>
      obtain ⟨hf, hsub, hch⟩ := hwf
      simp only [Context.lookup] at h
      cases hov : ctx.subcontexts.get? s with
      | none => rw [hov] at h; exact Option.noConfusion h
      | some oc =>
        rw [hov] at h
        cases oc with
        | none => exact Option.noConfusion h
        | some c2 =>
          have hlen2 : rest.length ≤ n := by simp at hlen; omega
          have := ih n c2 c (hch s c2 hov) hlen2 h
          have heq : n + 1 - (s :: rest).length = n - rest.length := by simp
          rw [heq]
          exact this

/-- Helper: under the model's structural invariant the source's outer walk
(decodeFromOrder, lines 93-111) computes exactly the spec's symbol-codec walk
at every starting order within the model order. -/
lemma decodeFromOrder_eq_specWalk (N : Nat) (m : PpmModel) (history : List Nat)
    (root : Context) (hesc : m.escapeSymbol = 256) (hwf : ContextWF N root)
    (hmem : ∀ s ∈ history, s < 257) :
    ∀ (o : Nat), o ≤ N → ∀ (d : Decoder) (acc : List (FreqTable × Nat)),
      decodeFromOrder m history root o d acc = specWalkOrder m history root o d acc := by
  intro o
  induction o with
  | zero =>
    intro hN d acc
    have hwalk : walkCtx root (history.take 0) = .ok (Context.lookup root (history.take 0)) :=
      walkCtx_eq_lookup (history.take 0) N root hwf
        (le_trans (List.length_take_le 0 history) (Nat.zero_le N))
        (fun x hx => hmem x (List.take_subset 0 history hx))
    simp only [decodeFromOrder, decodeTryOrder, specWalkOrder]
    rw [hwalk]
    simp only [List.take_zero, Context.lookup]
    cases hr : d.read root.frequencies with
    | error e => rfl
    | ok sd =>
      have hlt : sd.1 < 257 := by
        have h2 := read_lt d sd.2 root.frequencies sd.1 (by rw [hr])
        rwa [ContextWF_freqLen N root hwf] at h2
      dsimp only
      by_cases h2 : sd.1 < 256
      · rw [if_pos h2, if_neg (show ¬ sd.1 = m.escapeSymbol by rw [hesc]; omega)]
      · rw [if_neg h2, if_pos (show sd.1 = m.escapeSymbol by rw [hesc]; omega)]
  | succ o ih =>
    intro hN d acc
    have hlen : (history.take (o + 1)).length ≤ N :=
      le_trans (List.length_take_le (o + 1) history) hN
    have hwalk : walkCtx root (history.take (o + 1)) =
        .ok (Context.lookup root (history.take (o + 1))) :=
      walkCtx_eq_lookup (history.take (o + 1)) N root hwf hlen
        (fun x hx => hmem x (List.take_subset (o + 1) history hx))
    simp only [decodeFromOrder, decodeTryOrder, specWalkOrder]
    rw [hwalk]
    cases hlk : Context.lookup root (history.take (o + 1)) with
    | none => exact ih (by omega) d acc
    | some ctx =>
      have hctxwf := lookup_wf (history.take (o + 1)) N root ctx hwf hlen hlk
      dsimp only
      cases hr : d.read ctx.frequencies with
      | error e => rfl
      | ok sd =>
        have hlt : sd.1 < 257 := by
          have h2 := read_lt d sd.2 ctx.frequencies sd.1 (by rw [hr])
          rwa [ContextWF_freqLen _ ctx hctxwf] at h2
        dsimp only
        by_cases h2 : sd.1 < 256
        · rw [if_pos h2, if_neg (show ¬ sd.1 = m.escapeSymbol by rw [hesc]; omega)]
        · rw [if_neg h2, if_pos (show sd.1 = m.escapeSymbol by rw [hesc]; omega)]
          exact ih (by omega) sd.2 (acc ++ [(ctx.frequencies, sd.1)])

/-- Helper: a fully replicated-`none` child table has no children. -/
lemma get?_replicate_none (x : Option Context) (i n : Nat)
    (h : (List.replicate n (none : Option Context)).get? i = some x) : x = none := by
  induction n generalizing i with
  | zero => simp at h
  | succ n ih =>
    cases i with
    | zero =>
      simp only [List.replicate, List.get?] at h
      exact (Option.some.inj h).symm
    | succ i =>
      simp only [List.replicate, List.get?] at h
      exact ih i h

set_option maxRecDepth 200000 in
/-- Helper: the freshly constructed session model `PpmModel(3, 257, 256)` is
well-formed. -/
lemma modelWF_init : ModelWF 3 (PpmModel.mkInit 3 257 256) := by
  refine ⟨rfl, rfl, by simp [PpmModel.mkInit], initRoot 257 256 true, rfl, ?_, ?_, ?_⟩
  · simp [initRoot, Context.frequencies]
  · simp [initRoot, Context.subcontexts]
  · intro s c h
    simp only [initRoot, Context.subcontexts, if_pos] at h
    exact Option.noConfusion (get?_replicate_none (some c) s 257 h)

/-- C2: for every history and well-formed model state of the session (the
structural invariant every state of a `PpmModel(N, 257, 256)` session
satisfies), `decodeSymbol` (lines 89-112) computes exactly the spec's walk:
orders from `len(history)` down to 0 inclusive, locating the context node of
each order-length history prefix, skipping a missing node with no coder read,
reading an existing node's table once, returning a literal below 256 and
escaping to the next lower order on symbol 256, with the order −1 fallback
after order 0. -/
theorem C2_decode_matches_spec_walk (N : Nat) (m : PpmModel) (history : List Nat)
    (d : Decoder) (hwf : ModelWF N m) (hlen : history.length ≤ N)
    (hmem : ∀ s ∈ history, s < 257) :
    decodeSymbolTr d m history = specDecodeOneSymbol d m history := by
  obtain ⟨hN, hesc, hm1, root, hroot, hcwf⟩ := hwf
  unfold decodeSymbolTr specDecodeOneSymbol
  rw [hroot]
  exact decodeFromOrder_eq_specWalk N m history root hesc hcwf hmem history.length hlen d []

set_option maxRecDepth 200000 in
/-- Witness for C2 on the fresh session model with the one-symbol history
`[0]` (whose order-1 node does not exist yet, hence is skipped). -/
theorem C2_witness :
    decodeSymbolTr (Decoder.init []) (PpmModel.mkInit 3 257 256) [0] =
      specDecodeOneSymbol (Decoder.init []) (PpmModel.mkInit 3 257 256) [0] :=
  C2_decode_matches_spec_walk 3 (PpmModel.mkInit 3 257 256) [0] (Decoder.init [])
    modelWF_init (by simp) (by simp)

set_option maxRecDepth 200000 in
/-- C6: at the documented minimum model order −1 (line 29: "Must be at least
-1"), the decompressor cannot decode any stream at all: `decodeSymbol`
dereferences `model.rootContext.get()` unconditionally at order 0 (line 94)
although no order-0 context exists at model order −1, modelled as the
`nullDeref` failure.  Hence the claimed round-trip `decompress(compress(x)) =
x` cannot hold at model order −1 — here evaluated on the empty bit stream and
on the 32-one-bit stream, both of which fail at the very first symbol. -/
theorem C6_order_minus1_null_root :
    decompressWithOrder (-1) [] 2 = .fail CppExc.nullDeref ∧
    decompressWithOrder (-1) onesBits 2 = .fail CppExc.nullDeref :=
  ⟨rfl, rfl⟩

end PPM
